import Mathlib

/-!
Verification of the task-scheduling and future-resolution core described by
the specification of the ray-tutorials repository.  The notebooks in the
repository only call this core through the remote-execution API, so the
components below (Value Store, Dependency Resolver, Scheduler, Worker Pool,
Wait/Get API) are modelled from the specification's component design.
-/

namespace RayCore

/-! ## Error taxonomy (spec section 7) -/

/-- Error taxonomy of the core, from the specification's section 7:
DependencyFailedError wraps an upstream failure, ExecutionError wraps the
cause raised inside a task's function, TimeoutError signals an expired
blocking retrieval, DuplicateWriteError signals a second terminal write. -/
inductive Err where
  | executionError (cause : String)
  | dependencyFailedError (upstream : Err)
  | timeoutError
  | duplicateWriteError
deriving DecidableEq, Repr

/-! ## Value Store entries (spec section 3) -/

/-- Status of a Value Store Entry: PENDING, READY with the stored value, or
FAILED with the attached error detail. -/
inductive EntryStatus (V : Type) where
  | pending
  | ready (v : V)
  | failed (e : Err)
deriving DecidableEq, Repr

/-- An entry is terminal when it is READY or FAILED. -/
def EntryStatus.isTerminal {V : Type} : EntryStatus V → Bool
  | .pending => false
  | .ready _ => true
  | .failed _ => true

/-- A Value Store maps handles (numeric ids) to entry statuses. -/
def ValueStore (V : Type) := Nat → EntryStatus V

/-- Modelled from the spec: Put(handle, value) stores the value and
transitions the entry to READY; it fails with DuplicateWriteError if the
handle already has a terminal entry.  The store itself is not part of the
repository's source, only its callers are. -/
def vsPut {V : Type} (s : ValueStore V) (h : Nat) (v : V) :
    Except Err Unit × ValueStore V :=
  if (s h).isTerminal then (.error .duplicateWriteError, s)
  else (.ok (), fun h' => if h' = h then .ready v else s h')

/-- Modelled from the spec: PutError(handle, error) transitions the entry to
FAILED with the attached error; it fails with DuplicateWriteError if the
handle already has a terminal entry. -/
def vsPutError {V : Type} (s : ValueStore V) (h : Nat) (e : Err) :
    Except Err Unit × ValueStore V :=
  if (s h).isTerminal then (.error .duplicateWriteError, s)
  else (.ok (), fun h' => if h' = h then .failed e else s h')

/-- A write operation against the Value Store: a Put of a value or a
PutError of an error, aimed at one handle. -/
inductive WriteOp (V : Type) where
  | put (h : Nat) (v : V)
  | putErr (h : Nat) (e : Err)

/-- Apply one write operation, keeping only the resulting store. -/
def applyOp {V : Type} (s : ValueStore V) : WriteOp V → ValueStore V
  | .put h v => (vsPut s h v).2
  | .putErr h e => (vsPutError s h e).2

/-- Apply a sequence of write operations in order. -/
def applyOps {V : Type} (s : ValueStore V) : List (WriteOp V) → ValueStore V
  | [] => s
  | op :: rest => applyOps (applyOp s op) rest

theorem applyOp_terminal_fixed {V : Type} (s : ValueStore V) (op : WriteOp V)
    (h : Nat) (ht : (s h).isTerminal = true) : applyOp s op h = s h := by
  cases op with
  | put h' v =>
      by_cases hterm : (s h').isTerminal = true
      · simp [applyOp, vsPut, hterm]
      · simp only [applyOp, vsPut, hterm]
        simp only [Bool.not_eq_true] at hterm
        by_cases heq : h = h'
        · subst heq; rw [hterm] at ht; simp [EntryStatus.isTerminal] at ht
        · simp [heq]
  | putErr h' e =>
      by_cases hterm : (s h').isTerminal = true
      · simp [applyOp, vsPutError, hterm]
      · simp only [applyOp, vsPutError, hterm]
        simp only [Bool.not_eq_true] at hterm
        by_cases heq : h = h'
        · subst heq; rw [hterm] at ht; simp [EntryStatus.isTerminal] at ht
        · simp [heq]

theorem applyOps_terminal_fixed {V : Type} (ops : List (WriteOp V)) :
    ∀ (s : ValueStore V) (h : Nat), (s h).isTerminal = true →
      applyOps s ops h = s h := by
  induction ops with
  | nil => intro s h _; rfl
  | cons op rest ih =>
      intro s h ht
      have hstep := applyOp_terminal_fixed s op h ht
      have hterm' : ((applyOp s op) h).isTerminal = true := by rw [hstep]; exact ht
      calc applyOps (applyOp s op) rest h = (applyOp s op) h := ih _ h hterm'
        _ = s h := hstep

/-- C4 theorem, part of the statement packaged for reuse below. -/
def terminalWriteRejected {V : Type} (s : ValueStore V) (h : Nat) : Prop :=
  (∀ v, vsPut s h v = (.error .duplicateWriteError, s)) ∧
  (∀ e, vsPutError s h e = (.error .duplicateWriteError, s))

/-- C4: every Value Store entry transitions from PENDING to a terminal
status at most once; any Put or PutError on a handle that already has a
terminal entry fails with DuplicateWriteError and leaves the previously
stored value and status unchanged. -/
theorem entry_write_once {V : Type} (s : ValueStore V) (h : Nat)
    (ht : (s h).isTerminal = true) :
    terminalWriteRejected s h ∧
    (∀ ops : List (WriteOp V), applyOps s ops h = s h) := by
  refine ⟨⟨fun v => ?_, fun e => ?_⟩, fun ops => applyOps_terminal_fixed ops s h ht⟩
  · simp [vsPut, ht]
  · simp [vsPutError, ht]

/-- Witness for C4: a concrete store whose handle 0 is READY with value 7
rejects a second Put and keeps its value under a concrete operation
sequence of a Put followed by a PutError. -/
theorem entry_write_once_witness :
    vsPut (fun _ => EntryStatus.ready 7 : ValueStore Nat) 0 9 =
      (.error .duplicateWriteError, fun _ => EntryStatus.ready 7) ∧
    applyOps (fun _ => EntryStatus.ready 7)
      [WriteOp.put 0 9, WriteOp.putErr 0 .timeoutError] 0 = EntryStatus.ready 7 :=
  ⟨(entry_write_once (fun _ => EntryStatus.ready 7) 0 rfl).1.1 9,
   (entry_write_once (fun _ => EntryStatus.ready 7) 0 rfl).2
     [WriteOp.put 0 9, WriteOp.putErr 0 .timeoutError]⟩

/-! ## Blocking retrieval: Get and Wait (spec sections 4.1, 4.5, 5) -/

/-- Result of a blocking Get: the stored value, the propagated failure, or a
distinguished timeout signal. -/
inductive GetResult (V : Type) where
  | value (v : V)
  | failure (e : Err)
  | timedOut
deriving DecidableEq, Repr

/-- Modelled from the spec: Get(handle, timeout) blocks the calling context
until the entry is READY or FAILED, or until the timeout elapses.  The
entry's status over discrete time is a function of the poll instant; the
call returns the result together with the instant at which it returns.
The budget argument is the number of remaining time units before expiry. -/
def getPoll {V : Type} (statusAt : Nat → EntryStatus V) (t : Nat) :
    Nat → GetResult V × Nat
  | 0 =>
      match statusAt t with
      | .ready v => (.value v, t)
      | .failed e => (.failure e, t)
      | .pending => (.timedOut, t)
  | b + 1 =>
      match statusAt t with
      | .ready v => (.value v, t)
      | .failed e => (.failure e, t)
      | .pending => getPoll statusAt (t + 1) b

/-- Number of the given handles whose entries are terminal at time t. -/
def countTerminal {V : Type} (statusAt : Nat → Nat → EntryStatus V)
    (hs : List Nat) (t : Nat) : Nat :=
  hs.countP (fun h => (statusAt h t).isTerminal)

/-- Partition of the handles at time t into (terminal, still pending),
preserving their order in the input list. -/
def waitSplit {V : Type} (statusAt : Nat → Nat → EntryStatus V)
    (hs : List Nat) (t : Nat) : List Nat × List Nat :=
  (hs.filter (fun h => (statusAt h t).isTerminal),
   hs.filter (fun h => !(statusAt h t).isTerminal))

/-- Modelled from the spec: Wait(handles, num_required, timeout) returns as
soon as num_required of the handles are READY/FAILED, or when the timeout
elapses, whichever comes first; it never blocks on the full set.  Returns
the (ready subset, remaining subset) pair and the instant of return. -/
def waitPoll {V : Type} (statusAt : Nat → Nat → EntryStatus V)
    (hs : List Nat) (k : Nat) (t : Nat) :
    Nat → (List Nat × List Nat) × Nat
  | 0 => (waitSplit statusAt hs t, t)
  | b + 1 =>
      if k ≤ countTerminal statusAt hs t then (waitSplit statusAt hs t, t)
      else waitPoll statusAt hs k (t + 1) b

/-- The system state seen by retrieval calls: the timed view of every Value
Store entry.  Get and Wait read it and hand it back unchanged, because the
spec says timeout errors are local to the calling invocation. -/
structure SysView (V : Type) where
  statusAt : Nat → Nat → EntryStatus V

/-- Modelled from the spec: a Get call against the system; the state after
the call is returned alongside the result. -/
def sysGet {V : Type} (sys : SysView V) (h : Nat) (t b : Nat) :
    (GetResult V × Nat) × SysView V :=
  (getPoll (sys.statusAt h) t b, sys)

/-- Modelled from the spec: a Wait call against the system; the state after
the call is returned alongside the result. -/
def sysWait {V : Type} (sys : SysView V) (hs : List Nat) (k t b : Nat) :
    ((List Nat × List Nat) × Nat) × SysView V :=
  (waitPoll sys.statusAt hs k t b, sys)

/-- C7: Get on a handle whose entry is READY returns the stored value
immediately: the return instant equals the call instant, for any timeout
budget. -/
theorem get_ready_immediate {V : Type} (statusAt : Nat → EntryStatus V)
    (t b : Nat) (v : V) (hr : statusAt t = .ready v) :
    getPoll statusAt t b = (.value v, t) := by
  cases b <;> simp [getPoll, hr]

/-- Witness for C7 at a concrete store: handle status READY 5 at call time 2
with budget 9 returns value 5 at time 2. -/
theorem get_ready_immediate_witness :
    getPoll (fun _ => (EntryStatus.ready 5 : EntryStatus Nat)) 2 9 =
      (.value 5, 2) :=
  get_ready_immediate (fun _ => EntryStatus.ready 5) 2 9 5 rfl

theorem getPoll_pending_forever {V : Type} (statusAt : Nat → EntryStatus V)
    (hnever : ∀ u, statusAt u = .pending) :
    ∀ b t, getPoll statusAt t b = (.timedOut, t + b) := by
  intro b
  induction b with
  | zero => intro t; simp [getPoll, hnever t]
  | succ b ih =>
      intro t
      simp only [getPoll, hnever t]
      rw [ih (t + 1)]
      congr 1
      omega

theorem waitPoll_pending_forever {V : Type}
    (statusAt : Nat → Nat → EntryStatus V) (hs : List Nat) (k : Nat)
    (hk : 1 ≤ k)
    (hnever : ∀ h u, h ∈ hs → statusAt h u = .pending) :
    ∀ b t, waitPoll statusAt hs k t b = (([], hs), t + b) := by
  have hcount : ∀ u, countTerminal statusAt hs u = 0 := by
    intro u
    simp only [countTerminal, List.countP_eq_zero]
    intro h hmem
    simp [hnever h u hmem, EntryStatus.isTerminal]
  have hsplit : ∀ u, waitSplit statusAt hs u = ([], hs) := by
    intro u
    simp only [waitSplit, Prod.mk.injEq]
    constructor
    · rw [List.filter_eq_nil_iff]
      intro h hmem
      simp [hnever h u hmem, EntryStatus.isTerminal]
    · rw [List.filter_eq_self]
      intro h hmem
      simp [hnever h u hmem, EntryStatus.isTerminal]
  intro b
  induction b with
  | zero => intro t; simp [waitPoll, hsplit t]
  | succ b ih =>
      intro t
      have hc := hcount t
      have hnle : ¬ k ≤ countTerminal statusAt hs t := by omega
      rw [waitPoll, if_neg hnle, ih (t + 1)]
      have harith : t + 1 + b = t + (b + 1) := by omega
      rw [harith]

theorem waitPoll_spec {V : Type} (statusAt : Nat → Nat → EntryStatus V)
    (hs : List Nat) (k : Nat) :
    ∀ b t,
      (t ≤ (waitPoll statusAt hs k t b).2 ∧
        (waitPoll statusAt hs k t b).2 ≤ t + b) ∧
      (∀ u, t ≤ u → u < (waitPoll statusAt hs k t b).2 →
        countTerminal statusAt hs u < k) ∧
      ((waitPoll statusAt hs k t b).2 < t + b →
        k ≤ countTerminal statusAt hs (waitPoll statusAt hs k t b).2) ∧
      (waitPoll statusAt hs k t b).1 =
        waitSplit statusAt hs (waitPoll statusAt hs k t b).2 := by
  intro b
  induction b with
  | zero =>
      intro t
      rw [waitPoll]
      dsimp only
      exact ⟨⟨Nat.le_refl t, by omega⟩, fun u h1 h2 => by omega,
        fun hlt => by omega, rfl⟩
  | succ b ih =>
      intro t
      by_cases hc : k ≤ countTerminal statusAt hs t
      · rw [waitPoll, if_pos hc]
        dsimp only
        exact ⟨⟨Nat.le_refl t, by omega⟩, fun u h1 h2 => by omega,
          fun _ => hc, rfl⟩
      · rw [waitPoll, if_neg hc]
        obtain ⟨⟨hb1, hb2⟩, hbefore, hexact, hfst⟩ := ih (t + 1)
        refine ⟨⟨by omega, by omega⟩, ?_, ?_, hfst⟩
        · intro u hu1 hu2
          rcases Nat.eq_or_lt_of_le hu1 with heq | hlt
          · subst heq; omega
          · exact hbefore u (by omega) hu2
        · intro hlt
          exact hexact (by omega)

/-- C6: Wait(handles, num_required, timeout budget) returns at an instant r
in the window [t, t+b]; at every earlier instant in the window fewer than
num_required handles were terminal (it returns as soon as the requirement
is met); if it returned strictly before expiry, the requirement holds at r;
the returned pair is the terminal / still-pending partition of the handles
at r, never a wait for the full set; and with num_required = 1 it returns
no later than the first instant at which any single handle is terminal,
whatever the other handles do. -/
theorem wait_partial_completion {V : Type}
    (statusAt : Nat → Nat → EntryStatus V) (hs : List Nat) (k t b : Nat) :
    (t ≤ (waitPoll statusAt hs k t b).2 ∧
      (waitPoll statusAt hs k t b).2 ≤ t + b) ∧
    (∀ u, t ≤ u → u < (waitPoll statusAt hs k t b).2 →
      countTerminal statusAt hs u < k) ∧
    ((waitPoll statusAt hs k t b).2 < t + b →
      k ≤ countTerminal statusAt hs (waitPoll statusAt hs k t b).2) ∧
    (waitPoll statusAt hs k t b).1 =
      waitSplit statusAt hs (waitPoll statusAt hs k t b).2 ∧
    (∀ h u, k = 1 → h ∈ hs → t ≤ u → (statusAt h u).isTerminal = true →
      (waitPoll statusAt hs k t b).2 ≤ u) := by
  obtain ⟨hbounds, hbefore, hexact, hfst⟩ := waitPoll_spec statusAt hs k b t
  refine ⟨hbounds, hbefore, hexact, hfst, ?_⟩
  intro h u hk1 hmem hu hterm
  by_contra hgt
  push_neg at hgt
  have hlt := hbefore u hu hgt
  have hpos : 0 < countTerminal statusAt hs u := by
    have : ∃ a ∈ hs, ((statusAt a u).isTerminal : Bool) = true :=
      ⟨h, hmem, hterm⟩
    simpa [countTerminal, List.countP_pos_iff] using this
  omega

/-- Demonstration store for the C6 witness: handle 0 becomes READY at time
2, every other handle stays PENDING forever. -/
def waitDemoStatus : Nat → Nat → EntryStatus Nat :=
  fun h u => if h = 0 ∧ 2 ≤ u then .ready 1 else .pending

/-- Witness for C6: waiting on handles 0 and 1 with one required returns at
instant 2 with handle 0 ready and handle 1 still pending, and the theorem
bounds the return instant by the resolution instant of handle 0. -/
theorem wait_partial_completion_witness :
    (waitPoll waitDemoStatus [0, 1] 1 0 10).2 ≤ 2 ∧
    waitPoll waitDemoStatus [0, 1] 1 0 10 = (([0], [1]), 2) := by
  constructor
  · exact (wait_partial_completion waitDemoStatus [0, 1] 1 0 10).2.2.2.2
      0 2 rfl (by decide) (by omega) (by decide)
  · decide

/-- C8: a Get or Wait with a finite timeout budget against handles that
never become terminal returns the distinguished timeout result exactly when
the budget expires, and hands the system state back unchanged. -/
theorem timeout_expiry_local {V : Type} (sys : SysView V) (h : Nat)
    (hs : List Nat) (k t b : Nat) (hk : 1 ≤ k)
    (hgnever : ∀ u, sys.statusAt h u = .pending)
    (hwnever : ∀ h' u, h' ∈ hs → sys.statusAt h' u = .pending) :
    sysGet sys h t b = ((.timedOut, t + b), sys) ∧
    sysWait sys hs k t b = ((([], hs), t + b), sys) := by
  constructor
  · simp only [sysGet, getPoll_pending_forever (sys.statusAt h) hgnever b t]
  · simp only [sysWait,
      waitPoll_pending_forever sys.statusAt hs k hk hwnever b t]

/-- Witness for C8: a concrete all-pending system view; Get on handle 0
from time 0 with budget 4 times out at instant 4; Wait on handles 1 and 2
with one required does the same. -/
theorem timeout_expiry_local_witness :
    sysGet (SysView.mk (fun _ _ => (EntryStatus.pending : EntryStatus Nat)))
        0 0 4 =
      ((.timedOut, 4), SysView.mk (fun _ _ => EntryStatus.pending)) ∧
    sysWait (SysView.mk (fun _ _ => (EntryStatus.pending : EntryStatus Nat)))
        [1, 2] 1 0 4 =
      ((([], [1, 2]), 4), SysView.mk (fun _ _ => EntryStatus.pending)) :=
  timeout_expiry_local (SysView.mk (fun _ _ => EntryStatus.pending)) 0 [1, 2]
    1 0 4 (by decide) (fun _ => rfl) (fun _ _ _ => rfl)

/-! ## Dependency Resolver readiness (spec sections 4.2, 4.3, 8) -/

/-- Scheduling phase of a submitted task before it runs: BLOCKED on the
list of still-unresolved dependency handles, or READY. -/
inductive TaskPhase where
  | blockedOn (remaining : List Nat)
  | phaseReady
deriving DecidableEq, Repr

/-- Modelled from the spec: on submission the Dependency Resolver computes
the unresolved future-reference arguments; a task with none moves directly
to READY and a task with some is BLOCKED on them.  The resolver itself is
not part of the repository's source. -/
def submitPhase (deps : List Nat) : TaskPhase :=
  if deps = [] then .phaseReady else .blockedOn deps

/-- Modelled from the spec: when the Value Store entry of handle h becomes
terminal, h leaves the unresolved set of each blocked task, and a task
whose unresolved set empties moves to READY. -/
def onTerminal (p : TaskPhase) (h : Nat) : TaskPhase :=
  match p with
  | .phaseReady => .phaseReady
  | .blockedOn rem =>
      let rem' := rem.filter (fun d => d ≠ h)
      if rem' = [] then .phaseReady else .blockedOn rem'

/-- Process a sequence of terminal-write events in completion order. -/
def runEvents (p : TaskPhase) : List Nat → TaskPhase
  | [] => p
  | e :: es => runEvents (onTerminal p e) es

theorem runEvents_ready (evs : List Nat) :
    runEvents .phaseReady evs = .phaseReady := by
  induction evs with
  | nil => rfl
  | cons e es ih => simpa [runEvents, onTerminal] using ih

theorem runEvents_blocked_iff : ∀ (evs rem : List Nat), rem ≠ [] →
    (runEvents (.blockedOn rem) evs = .phaseReady ↔ ∀ d ∈ rem, d ∈ evs) := by
  intro evs
  induction evs with
  | nil =>
      intro rem hne
      simp only [runEvents]
      constructor
      · intro h; cases h
      · intro h
        obtain ⟨d, hd⟩ := List.exists_mem_of_ne_nil rem hne
        exact absurd (h d hd) (List.not_mem_nil d)
  | cons e es ih =>
      intro rem hne
      show runEvents (onTerminal (.blockedOn rem) e) es = .phaseReady ↔ _
      simp only [onTerminal]
      by_cases hrem : rem.filter (fun d => decide (d ≠ e)) = []
      · rw [if_pos hrem, runEvents_ready]
        have hall : ∀ d ∈ rem, d = e := by
          intro d hd
          have := List.filter_eq_nil_iff.mp hrem d hd
          simpa using this
        simp only [true_iff]
        intro d hd
        rw [hall d hd]
        exact List.mem_cons_self e es
      · rw [if_neg hrem]
        rw [ih _ hrem]
        constructor
        · intro hall d hd
          by_cases hde : d = e
          · rw [hde]; exact List.mem_cons_self e es
          · have hmem : d ∈ rem.filter (fun d => decide (d ≠ e)) :=
              List.mem_filter.mpr ⟨hd, by simpa using hde⟩
            exact List.mem_cons_of_mem e (hall d hmem)
        · intro hall d hd
          obtain ⟨hdrem, hde⟩ := List.mem_filter.mp hd
          have hde' : d ≠ e := by simpa using hde
          rcases List.mem_cons.mp (hall d hdrem) with heq | hmem
          · exact absurd heq hde'
          · exact hmem

/-- C2: a submitted task with no future-reference arguments is READY
immediately and stays READY through any sequence of terminal writes (it
never enters BLOCKED); a task with dependencies becomes READY, after any
sequence of terminal-write events, exactly when every one of its
dependencies has appeared among the events — for every completion order. -/
theorem ready_iff_deps_terminal (deps evs : List Nat) :
    runEvents (submitPhase []) evs = .phaseReady ∧
    (deps ≠ [] →
      (runEvents (submitPhase deps) evs = .phaseReady ↔
        ∀ d ∈ deps, d ∈ evs)) := by
  constructor
  · rw [show submitPhase [] = .phaseReady from rfl]
    exact runEvents_ready evs
  · intro hne
    rw [show submitPhase deps = .blockedOn deps by simp [submitPhase, hne]]
    exact runEvents_blocked_iff evs deps hne

/-- Witness for C2: with dependencies 3 and 5 completing in the order
5, 3 the task is READY, and a dependency-free task is READY after the
same events. -/
theorem ready_iff_deps_terminal_witness :
    runEvents (submitPhase []) [5, 3] = .phaseReady ∧
    runEvents (submitPhase [3, 5]) [5, 3] = .phaseReady :=
  ⟨(ready_iff_deps_terminal [3, 5] [5, 3]).1,
   ((ready_iff_deps_terminal [3, 5] [5, 3]).2 (by decide)).mpr (by decide)⟩

/-! ## Execution and failure propagation (spec sections 4.2, 4.4, 7) -/

/-- An argument of a task: a literal value or a future reference. -/
inductive Arg (V : Type) where
  | lit (v : V)
  | fut (h : Nat)
deriving DecidableEq, Repr

/-- Modelled from the spec: the Worker Pool catches a raise at the slot
boundary and turns it into a FAILED terminal write wrapping the raised
cause as an ExecutionError; a normal return becomes a READY write. -/
def execWrite {V : Type} (body : Except String V) : EntryStatus V :=
  match body with
  | .ok v => .ready v
  | .error cause => .failed (.executionError cause)

/-- Reading a terminal Value Store entry through Get: READY yields the
value, FAILED raises the stored error, PENDING means Get still blocks. -/
def getOutcome {V : Type} (e : EntryStatus V) : Option (Except Err V) :=
  match e with
  | .pending => none
  | .ready v => some (.ok v)
  | .failed err => some (.error err)

/-- Modelled from the spec: the Dependency Resolver resolves a task's
arguments against the store before execution; a PENDING future means the
task is not yet runnable; a FAILED future makes the task fail fast with a
DependencyFailedError wrapping the upstream error; otherwise the literal
and resolved values are produced in argument order. -/
def resolveArgs {V : Type} (store : ValueStore V) :
    List (Arg V) → Option (Except Err (List V))
  | [] => some (.ok [])
  | .lit v :: rest => (resolveArgs store rest).map (fun r => r.map (v :: ·))
  | .fut h :: rest =>
      match store h with
      | .pending => none
      | .failed e => some (.error (.dependencyFailedError e))
      | .ready v => (resolveArgs store rest).map (fun r => r.map (v :: ·))

/-- Modelled from the spec: running a task once its dependencies are
resolved.  A dependency failure marks the task FAILED without invoking its
function — the Bool records whether the function was executed — while an
okay resolution invokes the function under the slot-boundary catch. -/
def runTask {V : Type} (store : ValueStore V) (f : List V → Except String V)
    (args : List (Arg V)) : Option (EntryStatus V × Bool) :=
  (resolveArgs store args).map fun r =>
    match r with
    | .error e => (.failed e, false)
    | .ok vs => (execWrite (f vs), true)

theorem resolveArgs_failed_dep {V : Type} (store : ValueStore V)
    (h : Nat) (e : Err) (hfail : store h = .failed e) :
    ∀ args : List (Arg V), Arg.fut h ∈ args →
      (∀ h', Arg.fut h' ∈ args → h' ≠ h → ∃ v, store h' = .ready v) →
      resolveArgs store args = some (.error (.dependencyFailedError e)) := by
  intro args
  induction args with
  | nil => intro hmem; cases hmem
  | cons a rest ih =>
      intro hmem hothers
      cases a with
      | lit v =>
          have hmem' : Arg.fut h ∈ rest := by
            rcases List.mem_cons.mp hmem with heq | h'
            · cases heq
            · exact h'
          have hoth' : ∀ h', Arg.fut h' ∈ rest → h' ≠ h →
              ∃ w, store h' = .ready w :=
            fun h' hm hne => hothers h' (List.mem_cons_of_mem _ hm) hne
          simp only [resolveArgs, ih hmem' hoth', Option.map_some]
          rfl
      | fut h' =>
          by_cases hh : h' = h
          · subst hh
            simp only [resolveArgs, hfail]
          · obtain ⟨v, hv⟩ := hothers h' (List.mem_cons_self _ _) hh
            have hmem' : Arg.fut h ∈ rest := by
              rcases List.mem_cons.mp hmem with heq | hm
              · cases heq; exact absurd rfl hh
              · exact hm
            have hoth' : ∀ h'', Arg.fut h'' ∈ rest → h'' ≠ h →
                ∃ w, store h'' = .ready w :=
              fun h'' hm hne => hothers h'' (List.mem_cons_of_mem _ hm) hne
            simp only [resolveArgs, hv, ih hmem' hoth', Option.map_some]
            rfl

/-- C3: a task whose function raises gets a FAILED entry wrapping the
cause as an ExecutionError, and Get on its handle yields that error; any
task that takes the failed handle as an argument (its other future
arguments being READY) is marked FAILED with a DependencyFailedError
wrapping the upstream error and its function is never executed. -/
theorem failure_propagation {V : Type} (store : ValueStore V)
    (f : List V → Except String V) (args : List (Arg V))
    (cause : String) (h : Nat)
    (hfail : store h = .failed (.executionError cause))
    (hmem : Arg.fut h ∈ args)
    (hothers : ∀ h', Arg.fut h' ∈ args → h' ≠ h → ∃ v, store h' = .ready v) :
    execWrite (V := V) (.error cause) = .failed (.executionError cause) ∧
    getOutcome (execWrite (V := V) (.error cause)) =
      some (.error (.executionError cause)) ∧
    runTask store f args =
      some (.failed (.dependencyFailedError (.executionError cause)), false) := by
  refine ⟨rfl, rfl, ?_⟩
  rw [runTask, resolveArgs_failed_dep store h (.executionError cause) hfail
    args hmem hothers]
  rfl

/-- Witness for C3: handle 0 carries the failure of a task that raised
with cause boom; a task taking literal 1 and future 0 fails with the
wrapped error and is not executed. -/
theorem failure_propagation_witness :
    execWrite (V := Nat) (.error "boom") =
      .failed (.executionError "boom") ∧
    getOutcome (execWrite (V := Nat) (.error "boom")) =
      some (.error (.executionError "boom")) ∧
    runTask (fun _ => (EntryStatus.failed (.executionError "boom") :
        EntryStatus Nat)) (fun _ => .ok 0) [Arg.lit 1, Arg.fut 0] =
      some (.failed (.dependencyFailedError (.executionError "boom")),
        false) :=
  failure_propagation (fun _ => EntryStatus.failed (.executionError "boom"))
    (fun _ => .ok 0) [Arg.lit 1, Arg.fut 0] "boom" 0 rfl (by decide)
    (fun h' hmem hne => by
      rcases List.mem_cons.mp hmem with h1 | h2
      · cases h1
      · rcases List.mem_cons.mp h2 with h3 | h4
        · cases h3; exact absurd rfl hne
        · cases h4)

/-! ## Remote evaluation refines local evaluation (C9) -/

/-- Modelled from the spec: end-to-end remote evaluation of a registered
function on literal arguments: submit against an all-PENDING store,
resolve the (future-free) arguments, execute on a worker, write the
result, and Get the handle's outcome. -/
def remoteEval {V : Type} (f : List V → V) (vals : List V) :
    Option (Except Err V) :=
  match runTask (fun _ => EntryStatus.pending) (fun vs => .ok (f vs))
      (vals.map .lit) with
  | some (entry, _) => getOutcome entry
  | none => none

/-- The function of the notebooks' exercise: slow_square sleeps and then
returns the square of its argument; its value behavior is squaring. -/
def slow_square (n : Nat) : Nat := n * n

theorem resolveArgs_all_lits {V : Type} (store : ValueStore V) :
    ∀ vals : List V, resolveArgs store (vals.map .lit) = some (.ok vals) := by
  intro vals
  induction vals with
  | nil => rfl
  | cons v rest ih => simp only [List.map_cons, resolveArgs, ih]; rfl

/-- C9: remote scheduling is value-equivalent to local evaluation: for
every function and list of literal arguments, submitting the task and
getting the handle yields exactly the locally computed value; in
particular the remote slow_square applied to 0..3 yields 0, 1, 4, 9. -/
theorem remote_refines_local {V : Type} (f : List V → V) (vals : List V) :
    remoteEval f vals = some (.ok (f vals)) ∧
    (List.range 4).map
        (fun n => remoteEval (fun vs => slow_square (vs.headD 0)) [n]) =
      [some (.ok 0), some (.ok 1), some (.ok 4), some (.ok 9)] := by
  constructor
  · rw [remoteEval, runTask, resolveArgs_all_lits]
    rfl
  · rfl

/-! ## Get on a list of handles (C10) -/

/-- Modelled from the spec: apply the terminal writes of a set of finished
tasks in the order they completed; each write makes its own handle's entry
READY with the task's value. -/
def applyResults {V : Type} (store : ValueStore V) :
    List (Nat × V) → ValueStore V
  | [] => store
  | (h, v) :: rest =>
      applyResults (fun h' => if h' = h then .ready v else store h') rest

/-- Get on a list of handles reads the entries in the order the handles
appear in the input list. -/
def getList {V : Type} (store : ValueStore V) (hs : List Nat) :
    List (Option (Except Err V)) :=
  hs.map (fun h => getOutcome (store h))

/-- Handles written by a completion sequence. -/
def keysOf {V : Type} (l : List (Nat × V)) : List Nat := l.map Prod.fst

/-- Value a completion sequence assigns to a handle, if any. -/
def lookupVal {V : Type} (h : Nat) : List (Nat × V) → Option V
  | [] => none
  | (h', v) :: rest => if h = h' then some v else lookupVal h rest

theorem lookupVal_mem_keys {V : Type} (h : Nat) :
    ∀ (l : List (Nat × V)) (v : V), lookupVal h l = some v → h ∈ keysOf l := by
  intro l
  induction l with
  | nil => intro v hv; cases hv
  | cons p rest ih =>
      intro v hv
      obtain ⟨h', w⟩ := p
      by_cases heq : h = h'
      · subst heq; exact List.mem_cons_self _ _
      · rw [lookupVal, if_neg heq] at hv
        exact List.mem_cons_of_mem _ (ih v hv)

theorem applyResults_not_mem {V : Type} :
    ∀ (l : List (Nat × V)) (store : ValueStore V) (h : Nat),
      h ∉ keysOf l → applyResults store l h = store h := by
  intro l
  induction l with
  | nil => intro store h _; rfl
  | cons p rest ih =>
      intro store h hnm
      obtain ⟨h', v⟩ := p
      have hne : h ≠ h' := fun heq => hnm (heq ▸ List.mem_cons_self _ _)
      have hnm' : h ∉ keysOf rest :=
        fun hm => hnm (List.mem_cons_of_mem _ hm)
      rw [applyResults, ih _ h hnm', if_neg hne]

theorem applyResults_lookup {V : Type} :
    ∀ (l : List (Nat × V)) (store : ValueStore V) (h : Nat),
      (keysOf l).Nodup →
      applyResults store l h =
        (match lookupVal h l with
          | some v => .ready v
          | none => store h) := by
  intro l
  induction l with
  | nil => intro store h _; rfl
  | cons p rest ih =>
      intro store h hnd
      obtain ⟨h0, v0⟩ := p
      have hnd' : (keysOf rest).Nodup := (List.nodup_cons.mp hnd).2
      have h0nm : h0 ∉ keysOf rest := (List.nodup_cons.mp hnd).1
      rw [applyResults, ih _ h hnd']
      by_cases heq : h = h0
      · subst heq
        cases hrest : lookupVal h rest with
        | none => simp [lookupVal]
        | some w => exact absurd (lookupVal_mem_keys h rest w hrest) h0nm
      · rw [show lookupVal h ((h0, v0) :: rest) = lookupVal h rest by
          rw [lookupVal, if_neg heq]]
        cases lookupVal h rest with
        | none => simp [if_neg heq]
        | some w => rfl

theorem lookupVal_of_mem {V : Type} (h : Nat) (v : V) :
    ∀ l : List (Nat × V), (keysOf l).Nodup → (h, v) ∈ l →
      lookupVal h l = some v := by
  intro l
  induction l with
  | nil => intro _ hm; cases hm
  | cons p rest ih =>
      intro hnd hm
      obtain ⟨h0, v0⟩ := p
      have hnd' : (keysOf rest).Nodup := (List.nodup_cons.mp hnd).2
      have h0nm : h0 ∉ keysOf rest := (List.nodup_cons.mp hnd).1
      rcases List.mem_cons.mp hm with heq | hm'
      · cases heq
        simp [lookupVal]
      · have hne : h ≠ h0 := by
          intro heq
          subst heq
          exact h0nm (List.mem_map.mpr ⟨(h, v), hm', rfl⟩)
        rw [lookupVal, if_neg hne]
        exact ih hnd' hm'

theorem lookupVal_perm {V : Type} (h : Nat) (l l' : List (Nat × V))
    (hperm : l.Perm l') (hnd : (keysOf l).Nodup) :
    lookupVal h l = lookupVal h l' := by
  have hnd' : (keysOf l').Nodup :=
    ((hperm.map Prod.fst).nodup_iff).mp hnd
  cases hl : lookupVal h l with
  | some v =>
      have hm : (h, v) ∈ l' := hperm.mem_iff.mp (by
        clear hnd hnd' hperm
        induction l with
        | nil => cases hl
        | cons p rest ih =>
            obtain ⟨h0, v0⟩ := p
            by_cases heq : h = h0
            · subst heq
              rw [lookupVal, if_pos rfl] at hl
              cases hl
              exact List.mem_cons_self _ _
            · rw [lookupVal, if_neg heq] at hl
              exact List.mem_cons_of_mem _ (ih hl))
      exact (lookupVal_of_mem h v l' hnd' hm).symm
  | none =>
      cases hl' : lookupVal h l' with
      | none => rfl
      | some v =>
          have hm : (h, v) ∈ l := hperm.mem_iff.mpr (by
            clear hnd hnd' hperm hl
            induction l' with
            | nil => cases hl'
            | cons p rest ih =>
                obtain ⟨h0, v0⟩ := p
                by_cases heq : h = h0
                · subst heq
                  rw [lookupVal, if_pos rfl] at hl'
                  cases hl'
                  exact List.mem_cons_self _ _
                · rw [lookupVal, if_neg heq] at hl'
                  exact List.mem_cons_of_mem _ (ih hl'))
          have := lookupVal_of_mem h v l hnd hm
          rw [this] at hl
          cases hl

/-- C10: Get on a list of handles returns the outcomes in the order the
handles appear in the input list — each handle reads the value its own
task stored — and the answer is the same for every completion order (any
permutation of the terminal writes), as long as each task writes its own
distinct handle. -/
theorem get_list_order {V : Type} (store : ValueStore V)
    (rs rs' : List (Nat × V)) (hs : List Nat)
    (hnd : (keysOf rs).Nodup) (hperm : rs.Perm rs') :
    getList (applyResults store rs) hs =
      hs.map (fun h =>
        match lookupVal h rs with
        | some v => some (.ok v)
        | none => getOutcome (store h)) ∧
    getList (applyResults store rs) hs = getList (applyResults store rs') hs := by
  have hnd' : (keysOf rs').Nodup :=
    ((hperm.map Prod.fst).nodup_iff).mp hnd
  have hpoint : ∀ h, applyResults store rs h =
      (match lookupVal h rs with
        | some v => .ready v
        | none => store h) :=
    fun h => applyResults_lookup rs store h hnd
  have hpoint' : ∀ h, applyResults store rs' h =
      (match lookupVal h rs with
        | some v => .ready v
        | none => store h) := by
    intro h
    rw [applyResults_lookup rs' store h hnd', lookupVal_perm h rs rs' hperm hnd]
  constructor
  · apply List.map_congr_left
    intro h _
    rw [hpoint h]
    cases lookupVal h rs with
    | none => rfl
    | some v => rfl
  · apply List.map_congr_left
    intro h _
    rw [hpoint h, hpoint' h]

/-- Witness for C10: tasks for handles 0 and 1 finishing in either order
give the same Get answer, ordered by the handle list 1, 0. -/
theorem get_list_order_witness :
    getList (applyResults (fun _ => (EntryStatus.pending : EntryStatus Nat))
        [(0, 10), (1, 11)]) [1, 0] =
      [some (.ok 11), some (.ok 10)] ∧
    getList (applyResults (fun _ => (EntryStatus.pending : EntryStatus Nat))
        [(0, 10), (1, 11)]) [1, 0] =
      getList (applyResults (fun _ => EntryStatus.pending)
        [(1, 11), (0, 10)]) [1, 0] := by
  have h := get_list_order (fun _ => (EntryStatus.pending : EntryStatus Nat))
    [(0, 10), (1, 11)] [(1, 11), (0, 10)] [1, 0] (by decide)
    (List.Perm.swap _ _ _)
  exact ⟨by rw [h.1]; rfl, h.2⟩

/-! ## Scheduler state machine and the Ready Queue invariant (C5) -/

/-- Per-task scheduler status, from the spec's state machine in section
4.3: BLOCKED, READY, RUNNING, COMPLETED, FAILED. -/
inductive TStatus where
  | blockedSt
  | readySt
  | runningSt
  | completedSt
  | failedSt
deriving DecidableEq, Repr

/-- Scheduler state: the dependency lists of the submitted tasks (task ids
are list indices and double as the result handles), the per-task statuses,
and the Ready Queue.  A task's Value Store entry is READY exactly when the
task is COMPLETED and FAILED exactly when it is FAILED. -/
structure Sched where
  tasks : List (List Nat)
  status : List TStatus
  queue : List Nat
deriving DecidableEq, Repr

def statusOf (s : Sched) (t : Nat) : TStatus := s.status.getD t .blockedSt

def depsOf (s : Sched) (t : Nat) : List Nat := s.tasks.getD t []

/-- The Value Store entry of handle d is READY. -/
def depReady (s : Sched) (d : Nat) : Bool := statusOf s d = .completedSt

/-- The Value Store entry of handle d is terminal (READY or FAILED). -/
def depTerminal (s : Sched) (d : Nat) : Bool :=
  statusOf s d = .completedSt ∨ statusOf s d = .failedSt

/-- The Value Store entry of handle d is FAILED. -/
def depFailed (s : Sched) (d : Nat) : Bool := statusOf s d = .failedSt

def allDepsReady (s : Sched) (t : Nat) : Bool := (depsOf s t).all (depReady s)

def allDepsTerminal (s : Sched) (t : Nat) : Bool :=
  (depsOf s t).all (depTerminal s)

def someDepFailed (s : Sched) (t : Nat) : Bool :=
  (depsOf s t).any (depFailed s)

/-- Modelled from the spec: after a terminal write, a still-BLOCKED task
whose dependencies are now all terminal is promoted — FAILED fail-fast if
some dependency failed, otherwise READY and enqueued at the queue end. -/
def promoteOne (s : Sched) (t : Nat) : Sched :=
  if statusOf s t = .blockedSt ∧ allDepsTerminal s t = true then
    if someDepFailed s t then
      { s with status := s.status.set t .failedSt }
    else
      { s with status := s.status.set t .readySt, queue := s.queue ++ [t] }
  else s

/-- Modelled from the spec: the Blocked-to-Ready cascade re-evaluates the
blocked tasks in ascending task-id order (FIFO ties by submission order). -/
def cascade (s : Sched) : Sched :=
  (List.range s.tasks.length).foldl promoteOne s

/-- Modelled from the spec: submission appends a Task Descriptor; a task
whose dependencies are all terminal is READY at once (or FAILED fail-fast
when one of them failed) and a READY task enters the queue; otherwise the
task is BLOCKED.  The scheduler itself is Ray library code, not in src/. -/
def submitTask (s : Sched) (ds : List Nat) : Sched :=
  if ds.all (depTerminal s) then
    if ds.any (depFailed s) then
      ⟨s.tasks ++ [ds], s.status ++ [.failedSt], s.queue⟩
    else
      ⟨s.tasks ++ [ds], s.status ++ [.readySt], s.queue ++ [s.tasks.length]⟩
  else
    ⟨s.tasks ++ [ds], s.status ++ [.blockedSt], s.queue⟩

/-- Modelled from the spec: the assignment loop pops the Ready Queue front
onto an idle worker slot; the task starts RUNNING. -/
def assignTask (s : Sched) : Sched :=
  match s.queue with
  | [] => s
  | t :: rest =>
      { s with status := s.status.set t .runningSt, queue := rest }

/-- Modelled from the spec: a running task finishing writes READY to its
own handle (status COMPLETED) and the cascade re-evaluates dependents. -/
def finishSucc (s : Sched) (t : Nat) : Sched :=
  cascade { s with status := s.status.set t .completedSt }

/-- Modelled from the spec: a running task raising writes FAILED to its
own handle and the cascade re-evaluates dependents. -/
def finishFail (s : Sched) (t : Nat) : Sched :=
  cascade { s with status := s.status.set t .failedSt }

/-- One scheduler transition: submit a task whose dependency handles
already exist, assign the queue front, or finish a running task either
way. -/
inductive SchedStep : Sched → Sched → Prop where
  | submit (s : Sched) (ds : List Nat)
      (hds : ∀ d ∈ ds, d < s.tasks.length) : SchedStep s (submitTask s ds)
  | assign (s : Sched) (hne : s.queue ≠ []) : SchedStep s (assignTask s)
  | finishSucc (s : Sched) (t : Nat)
      (hrun : statusOf s t = .runningSt) : SchedStep s (finishSucc s t)
  | finishFail (s : Sched) (t : Nat)
      (hrun : statusOf s t = .runningSt) : SchedStep s (finishFail s t)

/-- Reachable scheduler states, from the idle initial state. -/
inductive Reach : Sched → Prop where
  | start : Reach ⟨[], [], []⟩
  | next {s s' : Sched} : Reach s → SchedStep s s' → Reach s'

/-- The scheduler invariant: statuses track tasks, the queue holds no
duplicates, queued ids are in range, a task is queued exactly when it is
READY, and a READY task has all of its dependency entries READY. -/
def SchedInv (s : Sched) : Prop :=
  s.status.length = s.tasks.length ∧
  s.queue.Nodup ∧
  (∀ t ∈ s.queue, t < s.tasks.length) ∧
  (∀ t, t ∈ s.queue ↔ statusOf s t = .readySt) ∧
  (∀ t, statusOf s t = .readySt → allDepsReady s t = true)

theorem getD_set_self {α : Type} (l : List α) (i : Nat) (a d : α)
    (h : i < l.length) : (l.set i a).getD i d = a := by
  rw [List.getD_eq_getElem _ d (by simpa using h)]
  exact List.getElem_set_self _

theorem getD_set_ne {α : Type} (l : List α) (i j : Nat) (a d : α)
    (hne : i ≠ j) : (l.set i a).getD j d = l.getD j d := by
  by_cases hj : j < l.length
  · rw [List.getD_eq_getElem _ d (by simpa using hj),
      List.getD_eq_getElem _ d hj]
    exact List.getElem_set_ne hne _
  · rw [List.getD_eq_default _ d (by simpa using Nat.le_of_not_lt hj),
      List.getD_eq_default _ d (Nat.le_of_not_lt hj)]

theorem getD_append_self {α : Type} (l : List α) (x d : α) :
    (l ++ [x]).getD l.length d = x := by
  rw [List.getD_append_right _ _ _ _ (Nat.le_refl _)]
  simp

theorem getD_append_of_lt {α : Type} (l : List α) (x d : α) (i : Nat)
    (h : i < l.length) : (l ++ [x]).getD i d = l.getD i d :=
  List.getD_append _ _ _ _ h

theorem getD_append_of_gt {α : Type} (l : List α) (x d : α) (i : Nat)
    (h : l.length < i) : (l ++ [x]).getD i d = d := by
  rw [List.getD_append_right _ _ _ _ (Nat.le_of_lt h),
    List.getD_eq_default]
  simp
  omega

theorem statusOf_set (s : Sched) (t : Nat) (X : TStatus) (q : List Nat)
    (u : Nat) (ht : t < s.status.length) :
    statusOf ⟨s.tasks, s.status.set t X, q⟩ u =
      if u = t then X else statusOf s u := by
  by_cases h : u = t
  · subst h; rw [if_pos rfl]; exact getD_set_self _ _ _ _ ht
  · rw [if_neg h]
    exact getD_set_ne _ t u _ _ (fun he => h he.symm)

theorem depReady_completed {s s' : Sched} (u : Nat)
    (hpt : ∀ d ∈ depsOf s u, statusOf s d = .completedSt →
      statusOf s' d = .completedSt)
    (h : allDepsReady s u = true) :
    (depsOf s u).all (depReady s') = true := by
  rw [List.all_eq_true]
  rw [allDepsReady, List.all_eq_true] at h
  intro d hd
  have hc : statusOf s d = .completedSt := by
    have := h d hd
    rw [depReady, decide_eq_true_eq] at this
    exact this
  rw [depReady, decide_eq_true_eq]
  exact hpt d hd hc

/-- Setting one task's status to a non-READY value, when the task was not
READY and not COMPLETED before, preserves the scheduler invariant. -/
theorem set_status_inv (s : Sched) (t : Nat) (X : TStatus)
    (hinv : SchedInv s) (ht : t < s.status.length)
    (hnro : statusOf s t ≠ .readySt) (hnrn : X ≠ .readySt)
    (hnc : statusOf s t ≠ .completedSt) :
    SchedInv ⟨s.tasks, s.status.set t X, s.queue⟩ := by
  obtain ⟨hlen, hnd, hbound, hiff, hready⟩ := hinv
  have hstat := fun u => statusOf_set s t X s.queue u ht
  refine ⟨by simpa using hlen, hnd, hbound, ?_, ?_⟩
  · intro u
    rw [hstat u]
    by_cases hu : u = t
    · subst hu
      rw [if_pos rfl]
      constructor
      · intro hq; exact absurd ((hiff u).mp hq) hnro
      · intro hX; exact absurd hX hnrn
    · rw [if_neg hu]; exact hiff u
  · intro u hu
    rw [hstat u] at hu
    by_cases hut : u = t
    · subst hut; rw [if_pos rfl] at hu; exact absurd hu hnrn
    · rw [if_neg hut] at hu
      have hall := hready u hu
      show (depsOf s u).all (depReady ⟨s.tasks, s.status.set t X, s.queue⟩) =
        true
      apply depReady_completed u _ hall
      intro d _ hc
      have hdt : d ≠ t := fun he => hnc (he ▸ hc)
      show statusOf ⟨s.tasks, s.status.set t X, s.queue⟩ d = .completedSt
      rw [hstat d, if_neg hdt]
      exact hc

theorem promoteOne_tasks (s : Sched) (t : Nat) :
    (promoteOne s t).tasks = s.tasks := by
  rw [promoteOne]
  split
  · split <;> rfl
  · rfl

theorem promoteOne_inv (s : Sched) (t : Nat) (ht : t < s.tasks.length)
    (hinv : SchedInv s) : SchedInv (promoteOne s t) := by
  obtain ⟨hlen, hnd, hbound, hiff, hready⟩ := hinv
  have htlen : t < s.status.length := by rw [hlen]; exact ht
  rw [promoteOne]
  by_cases hcond : statusOf s t = .blockedSt ∧ allDepsTerminal s t = true
  · rw [if_pos hcond]
    obtain ⟨hblocked, hterm⟩ := hcond
    have hnro : statusOf s t ≠ .readySt := by rw [hblocked]; intro h; cases h
    have hnc : statusOf s t ≠ .completedSt := by
      rw [hblocked]; intro h; cases h
    by_cases hfail : someDepFailed s t = true
    · rw [if_pos hfail]
      exact set_status_inv s t .failedSt
        ⟨hlen, hnd, hbound, hiff, hready⟩ htlen hnro (by intro h; cases h)
        hnc
    · rw [if_neg hfail]
      have hstat := fun u => statusOf_set s t .readySt (s.queue ++ [t]) u htlen
      have htq : t ∉ s.queue := fun hq => hnro ((hiff t).mp hq)
      have hdepscomp : ∀ d ∈ depsOf s t, statusOf s d = .completedSt := by
        intro d hd
        rw [allDepsTerminal, List.all_eq_true] at hterm
        have hterm' := hterm d hd
        rw [depTerminal, decide_eq_true_eq] at hterm'
        rcases hterm' with hc | hf
        · exact hc
        · exfalso
          apply hfail
          rw [someDepFailed, List.any_eq_true]
          exact ⟨d, hd, by rw [depFailed, hf]; exact decide_eq_true rfl⟩
      refine ⟨by simpa using hlen, ?_, ?_, ?_, ?_⟩
      · simpa [List.nodup_append] using ⟨hnd, htq⟩
      · intro u hu
        rcases List.mem_append.mp hu with h1 | h2
        · exact hbound u h1
        · rw [List.mem_singleton.mp h2]; exact ht
      · intro u
        rw [hstat u]
        by_cases hu : u = t
        · subst hu
          rw [if_pos rfl]
          simp
        · rw [if_neg hu]
          rw [List.mem_append]
          constructor
          · intro h
            rcases h with h1 | h2
            · exact (hiff u).mp h1
            · exact absurd (List.mem_singleton.mp h2) hu
          · intro h; exact Or.inl ((hiff u).mpr h)
      · intro u hu
        rw [hstat u] at hu
        by_cases hut : u = t
        · subst hut
          show (depsOf s u).all
            (depReady ⟨s.tasks, s.status.set u .readySt, s.queue ++ [u]⟩) =
            true
          rw [List.all_eq_true]
          intro d hd
          have hc := hdepscomp d hd
          have hdt : d ≠ u := fun he => by
            rw [he, hblocked] at hc; cases hc
          rw [depReady, decide_eq_true_eq]
          show statusOf ⟨s.tasks, s.status.set u .readySt, s.queue ++ [u]⟩ d =
            .completedSt
          rw [hstat d, if_neg hdt]
          exact hc
        · rw [if_neg hut] at hu
          have hall := hready u hu
          show (depsOf s u).all
            (depReady ⟨s.tasks, s.status.set t .readySt, s.queue ++ [t]⟩) =
            true
          apply depReady_completed u _ hall
          intro d _ hc
          have hdt : d ≠ t := fun he => by
            rw [he, hblocked] at hc; cases hc
          show statusOf ⟨s.tasks, s.status.set t .readySt, s.queue ++ [t]⟩ d =
            .completedSt
          rw [hstat d, if_neg hdt]
          exact hc
  · rw [if_neg hcond]
    exact ⟨hlen, hnd, hbound, hiff, hready⟩

theorem cascade_inv (s : Sched) (hinv : SchedInv s) :
    SchedInv (cascade s) := by
  rw [cascade]
  have hgen : ∀ (l : List Nat) (s' : Sched), SchedInv s' →
      s'.tasks = s.tasks → (∀ t ∈ l, t < s.tasks.length) →
      SchedInv (l.foldl promoteOne s') := by
    intro l
    induction l with
    | nil => intro s' hi _ _; exact hi
    | cons a l ih =>
        intro s' hi htk hbd
        rw [List.foldl_cons]
        apply ih (promoteOne s' a)
        · apply promoteOne_inv s' a _ hi
          rw [htk]; exact hbd a (List.mem_cons_self _ _)
        · rw [promoteOne_tasks, htk]
        · intro t htl; exact hbd t (List.mem_cons_of_mem _ htl)
  exact hgen (List.range s.tasks.length) s hinv rfl
    (fun t htl => List.mem_range.mp htl)

theorem statusOf_append (s : Sched) (ds : List Nat) (st : TStatus)
    (q : List Nat) (u : Nat) (hlen : s.status.length = s.tasks.length) :
    statusOf ⟨s.tasks ++ [ds], s.status ++ [st], q⟩ u =
      if u = s.tasks.length then st else statusOf s u := by
  by_cases hu : u = s.tasks.length
  · subst hu
    rw [if_pos rfl]
    show (s.status ++ [st]).getD s.tasks.length .blockedSt = st
    rw [← hlen]
    exact getD_append_self _ _ _
  · rw [if_neg hu]
    show (s.status ++ [st]).getD u .blockedSt = s.status.getD u .blockedSt
    rcases Nat.lt_or_ge u s.tasks.length with hlt | hge
    · exact getD_append_of_lt _ _ _ _ (by rw [hlen]; exact hlt)
    · have hgt : s.status.length < u := by omega
      rw [getD_append_of_gt _ _ _ _ hgt,
        List.getD_eq_default _ _ (by omega)]

theorem depsOf_append (s : Sched) (ds : List Nat) (st : List TStatus)
    (q : List Nat) (u : Nat) :
    depsOf ⟨s.tasks ++ [ds], st, q⟩ u =
      if u = s.tasks.length then ds else depsOf s u := by
  by_cases hu : u = s.tasks.length
  · subst hu
    rw [if_pos rfl]
    exact getD_append_self _ _ _
  · rw [if_neg hu]
    show (s.tasks ++ [ds]).getD u [] = s.tasks.getD u []
    rcases Nat.lt_or_ge u s.tasks.length with hlt | hge
    · exact getD_append_of_lt _ _ _ _ hlt
    · have hgt : s.tasks.length < u := by omega
      rw [getD_append_of_gt _ _ _ _ hgt,
        List.getD_eq_default _ _ (by omega)]

theorem submitTask_inv (s : Sched) (ds : List Nat)
    (_hds : ∀ d ∈ ds, d < s.tasks.length) (hinv : SchedInv s) :
    SchedInv (submitTask s ds) := by
  obtain ⟨hlen, hnd, hbound, hiff, hready⟩ := hinv
  have hnq : s.tasks.length ∉ s.queue :=
    fun hq => absurd (hbound _ hq) (Nat.lt_irrefl _)
  have hdefault : statusOf s s.tasks.length = .blockedSt := by
    rw [statusOf, List.getD_eq_default _ _ (by omega)]
  have hinv5 : ∀ (X : TStatus) (q : List Nat), (∀ u,
      statusOf ⟨s.tasks ++ [ds], s.status ++ [X], q⟩ u = .readySt →
      u ≠ s.tasks.length →
      allDepsReady ⟨s.tasks ++ [ds], s.status ++ [X], q⟩ u = true) := by
    intro X q u hu hune
    have hstat := fun w => statusOf_append s ds X q w hlen
    rw [hstat u, if_neg hune] at hu
    have hall := hready u hu
    rw [allDepsReady, depsOf_append s ds _ q u, if_neg hune,
      List.all_eq_true]
    rw [allDepsReady, List.all_eq_true] at hall
    intro d hd
    have hc : statusOf s d = .completedSt := by
      have := hall d hd
      rw [depReady, decide_eq_true_eq] at this
      exact this
    have hdn : d ≠ s.tasks.length := fun he => by
      rw [he, hdefault] at hc; cases hc
    rw [depReady, decide_eq_true_eq]
    show statusOf ⟨s.tasks ++ [ds], s.status ++ [X], q⟩ d = .completedSt
    rw [hstat d, if_neg hdn]
    exact hc
  have hiffkeep : ∀ (X : TStatus), X ≠ .readySt → ∀ u,
      (u ∈ s.queue ↔
        statusOf ⟨s.tasks ++ [ds], s.status ++ [X], s.queue⟩ u =
          .readySt) := by
    intro X hX u
    rw [statusOf_append s ds X s.queue u hlen]
    by_cases hu : u = s.tasks.length
    · subst hu
      rw [if_pos rfl]
      constructor
      · intro hq; exact absurd hq hnq
      · intro h; exact absurd h hX
    · rw [if_neg hu]; exact hiff u
  rw [submitTask]
  by_cases hterm : ds.all (depTerminal s) = true
  · rw [if_pos hterm]
    by_cases hfail : ds.any (depFailed s) = true
    · rw [if_pos hfail]
      refine ⟨by simp [hlen], hnd, ?_, hiffkeep .failedSt (by intro h; cases h), ?_⟩
      · intro t htq
        have := hbound t htq
        simp only [List.length_append, List.length_singleton]
        omega
      · intro u hu
        have hune : u ≠ s.tasks.length := by
          intro he
          rw [he, statusOf_append s ds _ _ _ hlen, if_pos rfl] at hu
          cases hu
        exact hinv5 .failedSt s.queue u hu hune
    · rw [if_neg hfail]
      have hstat := fun w =>
        statusOf_append s ds .readySt (s.queue ++ [s.tasks.length]) w hlen
      refine ⟨by simp [hlen], ?_, ?_, ?_, ?_⟩
      · simpa [List.nodup_append] using ⟨hnd, hnq⟩
      · intro t htq
        simp only [List.length_append, List.length_singleton]
        rcases List.mem_append.mp htq with h1 | h2
        · have := hbound t h1; omega
        · rw [List.mem_singleton.mp h2]; omega
      · intro u
        rw [hstat u]
        by_cases hu : u = s.tasks.length
        · subst hu
          rw [if_pos rfl]
          simp
        · rw [if_neg hu, List.mem_append]
          constructor
          · intro h
            rcases h with h1 | h2
            · exact (hiff u).mp h1
            · exact absurd (List.mem_singleton.mp h2) hu
          · intro h; exact Or.inl ((hiff u).mpr h)
      · intro u hu
        by_cases hune : u = s.tasks.length
        · subst hune
          rw [allDepsReady, depsOf_append s ds _ _ _, if_pos rfl,
            List.all_eq_true]
          intro d hd
          rw [List.all_eq_true] at hterm
          have htd := hterm d hd
          rw [depTerminal, decide_eq_true_eq] at htd
          have hc : statusOf s d = .completedSt := by
            rcases htd with hc | hf
            · exact hc
            · exfalso
              apply hfail
              rw [List.any_eq_true]
              exact ⟨d, hd, by rw [depFailed, hf]; exact decide_eq_true rfl⟩
          have hdn : d ≠ s.tasks.length := fun he => by
            rw [he, hdefault] at hc; cases hc
          rw [depReady, decide_eq_true_eq]
          show statusOf ⟨s.tasks ++ [ds], s.status ++ [.readySt], _⟩ d =
            .completedSt
          rw [hstat d, if_neg hdn]
          exact hc
        · exact hinv5 .readySt (s.queue ++ [s.tasks.length]) u hu hune
  · rw [if_neg hterm]
    refine ⟨by simp [hlen], hnd, ?_,
      hiffkeep .blockedSt (by intro h; cases h), ?_⟩
    · intro t htq
      have := hbound t htq
      simp only [List.length_append, List.length_singleton]
      omega
    · intro u hu
      have hune : u ≠ s.tasks.length := by
        intro he
        rw [he, statusOf_append s ds _ _ _ hlen, if_pos rfl] at hu
        cases hu
      exact hinv5 .blockedSt s.queue u hu hune

theorem assignTask_inv (s : Sched) (hinv : SchedInv s) :
    SchedInv (assignTask s) := by
  obtain ⟨hlen, hnd, hbound, hiff, hready⟩ := hinv
  cases hq : s.queue with
  | nil =>
      have : assignTask s = s := by rw [assignTask, hq]
      rw [this]
      exact ⟨hlen, hnd, hbound, hiff, hready⟩
  | cons t rest =>
      have hassign : assignTask s =
          ⟨s.tasks, s.status.set t .runningSt, rest⟩ := by
        rw [assignTask, hq]
      rw [hassign]
      have htmem : t ∈ s.queue := by rw [hq]; exact List.mem_cons_self _ _
      have htready : statusOf s t = .readySt := (hiff t).mp htmem
      have htlen : t < s.status.length := by
        rw [hlen]
        exact hbound t htmem
      have hstat := fun u => statusOf_set s t .runningSt rest u htlen
      have hnodup : t ∉ rest ∧ rest.Nodup := by
        rw [hq] at hnd
        exact List.nodup_cons.mp hnd
      refine ⟨by simpa using hlen, hnodup.2, ?_, ?_, ?_⟩
      · intro u hu
        exact hbound u (by rw [hq]; exact List.mem_cons_of_mem _ hu)
      · intro u
        rw [hstat u]
        by_cases hu : u = t
        · subst hu
          rw [if_pos rfl]
          constructor
          · intro h; exact absurd h hnodup.1
          · intro h; cases h
        · rw [if_neg hu]
          rw [← hiff u, hq, List.mem_cons]
          constructor
          · intro h; exact Or.inr h
          · intro h
            rcases h with h1 | h2
            · exact absurd h1 hu
            · exact h2
      · intro u hu
        rw [hstat u] at hu
        by_cases hut : u = t
        · subst hut; rw [if_pos rfl] at hu; cases hu
        · rw [if_neg hut] at hu
          have hall := hready u hu
          show (depsOf s u).all
            (depReady ⟨s.tasks, s.status.set t .runningSt, rest⟩) = true
          apply depReady_completed u _ hall
          intro d _ hc
          have hdt : d ≠ t := fun he => by
            rw [he, htready] at hc; cases hc
          show statusOf ⟨s.tasks, s.status.set t .runningSt, rest⟩ d =
            .completedSt
          rw [hstat d, if_neg hdt]
          exact hc

theorem finish_status_lt (s : Sched) (t : Nat)
    (hrun : statusOf s t = .runningSt) : t < s.status.length := by
  by_contra h
  rw [statusOf, List.getD_eq_default _ _ (Nat.le_of_not_lt h)] at hrun
  cases hrun

theorem finishSucc_inv (s : Sched) (t : Nat)
    (hrun : statusOf s t = .runningSt) (hinv : SchedInv s) :
    SchedInv (finishSucc s t) := by
  apply cascade_inv
  apply set_status_inv s t .completedSt hinv (finish_status_lt s t hrun)
  · rw [hrun]; intro h; cases h
  · intro h; cases h
  · rw [hrun]; intro h; cases h

theorem finishFail_inv (s : Sched) (t : Nat)
    (hrun : statusOf s t = .runningSt) (hinv : SchedInv s) :
    SchedInv (finishFail s t) := by
  apply cascade_inv
  apply set_status_inv s t .failedSt hinv (finish_status_lt s t hrun)
  · rw [hrun]; intro h; cases h
  · intro h; cases h
  · rw [hrun]; intro h; cases h

theorem reach_inv (s : Sched) (hr : Reach s) : SchedInv s := by
  induction hr with
  | start =>
      refine ⟨rfl, List.nodup_nil, ?_, ?_, ?_⟩
      · intro t ht; cases ht
      · intro t
        constructor
        · intro ht; cases ht
        · intro h; cases h
      · intro t ht; cases ht
  | next hr hstep ih =>
      cases hstep with
      | submit ds hds => exact submitTask_inv _ ds hds ih
      | assign hne => exact assignTask_inv _ ih
      | finishSucc t hrun => exact finishSucc_inv _ t hrun ih
      | finishFail t hrun => exact finishFail_inv _ t hrun ih

/-- Counterexample to C5 as stated: after submitting a dependency-free
task and assigning it to a worker — a reachable state — task 0 has every
(zero) future-reference argument READY, yet the Ready Queue does not
contain it, refuting the claimed equivalence. -/
theorem ready_queue_iff_counterexample :
    Reach (assignTask (submitTask ⟨[], [], []⟩ [])) ∧
    ¬ ((0 ∈ (assignTask (submitTask ⟨[], [], []⟩ [])).queue) ↔
        (depsOf (assignTask (submitTask ⟨[], [], []⟩ [])) 0 = [] ∨
          allDepsReady (assignTask (submitTask ⟨[], [], []⟩ [])) 0 =
            true)) := by
  constructor
  · exact Reach.next
      (Reach.next Reach.start (SchedStep.submit ⟨[], [], []⟩ []
        (fun d hd => absurd hd (List.not_mem_nil d))))
      (SchedStep.assign _ (by decide))
  · decide

/-- C5 amended: in every reachable scheduler state the Ready Queue
contains a task id exactly when the task's status is READY (all its future
arguments READY and the task not yet assigned to a worker), and every
READY task has all of its future-reference arguments READY in the Value
Store. -/
theorem ready_queue_characterization (s : Sched) (hr : Reach s) :
    (∀ t, t ∈ s.queue ↔ statusOf s t = .readySt) ∧
    (∀ t, statusOf s t = .readySt → allDepsReady s t = true) := by
  obtain ⟨_, _, _, hiff, hready⟩ := reach_inv s hr
  exact ⟨hiff, hready⟩

/-- Witness for the amended C5 at a concrete reachable state: a freshly
submitted dependency-free task is READY, in the queue, and with all its
dependencies READY. -/
theorem ready_queue_characterization_witness :
    (0 ∈ (submitTask ⟨[], [], []⟩ []).queue) ∧
    allDepsReady (submitTask ⟨[], [], []⟩ []) 0 = true :=
  ⟨((ready_queue_characterization (submitTask ⟨[], [], []⟩ [])
      (Reach.next Reach.start (SchedStep.submit ⟨[], [], []⟩ []
        (fun d hd => absurd hd (List.not_mem_nil d))))).1 0).mpr (by decide),
   (ready_queue_characterization (submitTask ⟨[], [], []⟩ [])
      (Reach.next Reach.start (SchedStep.submit ⟨[], [], []⟩ []
        (fun d hd => absurd hd (List.not_mem_nil d))))).2 0 (by decide)⟩

/-! ## Worker-pool timing under oversubscription (C1) -/

/-- A worker slot: the (task id, finish time) pairs it has completed, in
completion order, and its current task with its finish time if busy. -/
structure Slot where
  hist : List (Nat × Nat)
  cur : Option (Nat × Nat)
deriving DecidableEq, Repr

/-- State of the timing simulation: the worker slots and the Ready Queue
of waiting task ids. -/
structure PoolState where
  slots : List Slot
  queue : List Nat
deriving DecidableEq, Repr

/-- Modelled from the spec: the assignment loop fills each idle slot, in
slot order, with the task popped from the Ready Queue front; a task of
duration dur t assigned at instant now finishes at now + dur t.  The
scheduler is Ray library code, not in src/; this renders section 4.3. -/
def fillIdle (dur : Nat → Nat) (now : Nat) :
    List Slot → List Nat → List Slot × List Nat
  | [], q => ([], q)
  | s :: rest, [] =>
      let p := fillIdle dur now rest []
      (s :: p.1, p.2)
  | s :: rest, t :: q' =>
      if s.cur.isSome then
        let p := fillIdle dur now rest (t :: q')
        (s :: p.1, p.2)
      else
        let p := fillIdle dur now rest q'
        (⟨s.hist, some (t, now + dur t)⟩ :: p.1, p.2)

/-- Finish time of a slot's current task, if busy. -/
def slotFinish (s : Slot) : Option Nat := s.cur.map Prod.snd

/-- Minimum of two optional times. -/
def optMin : Option Nat → Option Nat → Option Nat
  | none, m => m
  | some f, none => some f
  | some f, some m => some (min f m)

/-- Finish time of the earliest-finishing busy slot, if any. -/
def minFinish : List Slot → Option Nat
  | [] => none
  | s :: rest => optMin (slotFinish s) (minFinish rest)

/-- Modelled from the spec: the earliest completion event frees the first
slot whose current task finishes at instant f, recording the completion in
the slot's history. -/
def freeFirst (f : Nat) : List Slot → List Slot
  | [] => []
  | s :: rest =>
      match s.cur with
      | some (tid, ft) =>
          if ft = f then ⟨s.hist ++ [(tid, ft)], none⟩ :: rest
          else s :: freeFirst f rest
      | none => s :: freeFirst f rest

/-- Modelled from the spec: one scheduler event — the earliest completion
fires, frees its slot, and the assignment loop refills idle slots from the
queue at that instant. -/
def poolStep (dur : Nat → Nat) (s : PoolState) : PoolState :=
  match minFinish s.slots with
  | none => s
  | some f =>
      let p := fillIdle dur f (freeFirst f s.slots) s.queue
      ⟨p.1, p.2⟩

/-- Run n scheduler events. -/
def poolSteps (dur : Nat → Nat) : Nat → PoolState → PoolState
  | 0, s => s
  | n + 1, s => poolSteps dur n (poolStep dur s)

/-- Modelled from the spec: the oversubscription scenario — N = 2W tasks
of durations 0..N-1 submitted in increasing order to an idle pool of W
slots; the assignment loop first fills all W slots, then 2W completion
events run the system dry. -/
def oversub (W : Nat) : PoolState :=
  poolSteps (fun n => n) (2 * W)
    ⟨(fillIdle (fun n => n) 0 (List.replicate W ⟨[], none⟩)
        (List.range (2 * W))).1,
      (fillIdle (fun n => n) 0 (List.replicate W ⟨[], none⟩)
        (List.range (2 * W))).2⟩

/-- Latest finish time recorded in a history. -/
def histMax (h : List (Nat × Nat)) : Nat :=
  h.foldr (fun p acc => max p.2 acc) 0

/-- Overall completion time: the latest completion recorded anywhere. -/
def makespan (s : PoolState) : Nat :=
  s.slots.foldr (fun sl acc => max (histMax sl.hist) acc) 0

/-- A slot still running its first scenario task j, which finishes at j. -/
def firstSlot (j : Nat) : Slot := ⟨[], some (j, j)⟩

/-- A slot that completed task j at instant j and now runs its second task
W + j, finishing at W + 2j. -/
def secondSlot (W j : Nat) : Slot := ⟨[(j, j)], some (W + j, W + 2 * j)⟩

/-- A slot done with both of its scenario tasks j and W + j. -/
def doneSlot (W j : Nat) : Slot := ⟨[(j, j), (W + j, W + 2 * j)], none⟩

/-- Slot j during phase A, after k completion events: slots below k
already run their second task, the others still run their first. -/
def slotA (W k j : Nat) : Slot :=
  if j < k then secondSlot W j else firstSlot j

def slotsA (W k : Nat) : List Slot := (List.range W).map (slotA W k)

/-- Slot j during phase B, after W + m completion events: slots below m
are done with both their tasks, the others run their second. -/
def slotB (W m j : Nat) : Slot :=
  if j < m then doneSlot W j else secondSlot W j

def slotsB (W m : Nat) : List Slot := (List.range W).map (slotB W m)

theorem fillIdle_busy (dur : Nat → Nat) (now : Nat) :
    ∀ (slots : List Slot) (q : List Nat),
      (∀ s ∈ slots, s.cur.isSome = true) →
      fillIdle dur now slots q = (slots, q) := by
  intro slots
  induction slots with
  | nil => intro q _; rfl
  | cons s rest ih =>
      intro q hb
      have hs : s.cur.isSome = true := hb s (List.mem_cons_self _ _)
      cases q with
      | nil =>
          rw [fillIdle, ih [] (fun x hx => hb x (List.mem_cons_of_mem _ hx))]
      | cons t q' =>
          rw [fillIdle, if_pos hs,
            ih (t :: q') (fun x hx => hb x (List.mem_cons_of_mem _ hx))]

theorem fillIdle_nilq (dur : Nat → Nat) (now : Nat) :
    ∀ slots : List Slot, fillIdle dur now slots [] = (slots, []) := by
  intro slots
  induction slots with
  | nil => rfl
  | cons s rest ih => rw [fillIdle, ih]

theorem fillIdle_append_busy (dur : Nat → Nat) (now : Nat) :
    ∀ (A rest : List Slot) (q : List Nat),
      (∀ s ∈ A, s.cur.isSome = true) →
      fillIdle dur now (A ++ rest) q =
        ((A ++ (fillIdle dur now rest q).1), (fillIdle dur now rest q).2) := by
  intro A
  induction A with
  | nil => intro rest q _; simp
  | cons s A' ih =>
      intro rest q hb
      have hs : s.cur.isSome = true := hb s (List.mem_cons_self _ _)
      rw [List.cons_append]
      cases q with
      | nil =>
          rw [fillIdle,
            ih rest [] (fun x hx => hb x (List.mem_cons_of_mem _ hx))]
          rw [List.cons_append]
      | cons t q' =>
          rw [fillIdle, if_pos hs,
            ih rest (t :: q') (fun x hx => hb x (List.mem_cons_of_mem _ hx))]
          rw [List.cons_append]

theorem fillIdle_cons_idle (dur : Nat → Nat) (now : Nat)
    (h : List (Nat × Nat)) (rest : List Slot) (t : Nat) (q : List Nat) :
    fillIdle dur now (⟨h, none⟩ :: rest) (t :: q) =
      (⟨h, some (t, now + dur t)⟩ :: (fillIdle dur now rest q).1,
        (fillIdle dur now rest q).2) := by
  rfl

theorem minFinish_append (xs ys : List Slot) :
    minFinish (xs ++ ys) = optMin (minFinish xs) (minFinish ys) := by
  induction xs with
  | nil =>
      rw [List.nil_append]
      cases minFinish ys <;> rfl
  | cons s xs ih =>
      rw [List.cons_append, minFinish, minFinish, ih]
      cases slotFinish s with
      | none => rfl
      | some f =>
          cases minFinish xs with
          | none => cases minFinish ys <;> rfl
          | some m =>
              cases minFinish ys with
              | none => rfl
              | some m' => simp [optMin, Nat.min_assoc]

theorem minFinish_none (slots : List Slot)
    (hall : ∀ s ∈ slots, s.cur = none) : minFinish slots = none := by
  induction slots with
  | nil => rfl
  | cons s rest ih =>
      rw [minFinish, slotFinish, hall s (List.mem_cons_self _ _),
        ih (fun x hx => hall x (List.mem_cons_of_mem _ hx))]
      rfl

theorem minFinish_mono_range (g : Nat → Slot) (c : Nat → Nat)
    (hg : ∀ j, slotFinish (g j) = some (c j))
    (hmono : ∀ i j, i ≤ j → c i ≤ c j) :
    ∀ n a, 0 < n →
      minFinish ((List.range' a n).map g) = some (c a) := by
  intro n
  induction n with
  | zero => intro a h; omega
  | succ n ih =>
      intro a _
      rw [List.range'_succ, List.map_cons, minFinish, hg a]
      rcases Nat.eq_zero_or_pos n with hn | hn
      · subst hn; rfl
      · rw [ih (a + 1) hn]
        rw [optMin]
        rw [Nat.min_eq_left (hmono a (a + 1) (by omega))]

theorem freeFirst_skip (f : Nat) :
    ∀ (A B : List Slot), (∀ s ∈ A, slotFinish s ≠ some f) →
      freeFirst f (A ++ B) = A ++ freeFirst f B := by
  intro A
  induction A with
  | nil => intro B _; rfl
  | cons s A' ih =>
      intro B hne
      have hs := hne s (List.mem_cons_self _ _)
      rw [List.cons_append, freeFirst]
      cases hc : s.cur with
      | none =>
          dsimp only
          rw [ih B (fun x hx => hne x (List.mem_cons_of_mem _ hx))]
          rw [List.cons_append]
      | some p =>
          obtain ⟨tid, ft⟩ := p
          have hft : ft ≠ f := by
            intro he
            apply hs
            rw [slotFinish, hc, he]
            rfl
          dsimp only
          rw [if_neg hft, ih B (fun x hx => hne x (List.mem_cons_of_mem _ hx))]
          rw [List.cons_append]

theorem freeFirst_hit (f : Nat) (h : List (Nat × Nat)) (tid : Nat)
    (rest : List Slot) :
    freeFirst f (⟨h, some (tid, f)⟩ :: rest) =
      ⟨h ++ [(tid, f)], none⟩ :: rest := by
  rw [freeFirst]
  dsimp only
  rw [if_pos rfl]

theorem range_split (W k : Nat) (hk : k ≤ W) :
    List.range W = List.range k ++ List.range' k (W - k) := by
  have h := List.range'_append 0 k (W - k) 1
  simp only [Nat.zero_add, Nat.one_mul] at h
  rw [List.range_eq_range', List.range_eq_range', h]
  congr 1
  omega

theorem slotsA_split (W k : Nat) (hk : k ≤ W) :
    slotsA W k = (List.range k).map (secondSlot W) ++
      (List.range' k (W - k)).map firstSlot := by
  rw [slotsA, range_split W k hk, List.map_append]
  congr 1
  · apply List.map_congr_left
    intro j hj
    rw [slotA, if_pos (List.mem_range.mp hj)]
  · apply List.map_congr_left
    intro j hj
    have hjk := (List.mem_range'_1.mp hj).1
    rw [slotA, if_neg (by omega)]

theorem slotsB_split (W m : Nat) (hm : m ≤ W) :
    slotsB W m = (List.range m).map (doneSlot W) ++
      (List.range' m (W - m)).map (secondSlot W) := by
  rw [slotsB, range_split W m hm, List.map_append]
  congr 1
  · apply List.map_congr_left
    intro j hj
    rw [slotB, if_pos (List.mem_range.mp hj)]
  · apply List.map_congr_left
    intro j hj
    have hjm := (List.mem_range'_1.mp hj).1
    rw [slotB, if_neg (by omega)]

theorem minFinish_first (a n : Nat) (hn : 0 < n) :
    minFinish ((List.range' a n).map firstSlot) = some a :=
  minFinish_mono_range firstSlot (fun j => j) (fun _ => rfl)
    (fun _ _ h => h) n a hn

theorem minFinish_second (W a n : Nat) (hn : 0 < n) :
    minFinish ((List.range' a n).map (secondSlot W)) = some (W + 2 * a) :=
  minFinish_mono_range (secondSlot W) (fun j => W + 2 * j) (fun _ => rfl)
    (fun i j h => by show W + 2 * i ≤ W + 2 * j; omega) n a hn

theorem minFinish_done (W : Nat) (l : List Nat) :
    minFinish (l.map (doneSlot W)) = none := by
  apply minFinish_none
  intro s hs
  obtain ⟨j, _, rfl⟩ := List.mem_map.mp hs
  rfl

theorem stepA (W k : Nat) (hk : k < W) :
    poolStep (fun n => n) ⟨slotsA W k, List.range' (W + k) (W - k)⟩ =
      ⟨slotsA W (k + 1), List.range' (W + k + 1) (W - (k + 1))⟩ := by
  have hWk : W - k = (W - k - 1) + 1 := by omega
  have hA := slotsA_split W k (by omega)
  have hBdec : (List.range' k (W - k)).map firstSlot =
      firstSlot k :: (List.range' (k + 1) (W - k - 1)).map firstSlot := by
    conv_lhs => rw [hWk, List.range'_succ, List.map_cons]
  have hmin : minFinish (slotsA W k) = some k := by
    rw [hA, minFinish_append, minFinish_first k (W - k) (by omega)]
    rcases Nat.eq_zero_or_pos k with h0 | hpos
    · subst h0; rfl
    · rw [List.range_eq_range',
        minFinish_second W 0 k hpos, optMin]
      congr 1
      omega
  have hfree : freeFirst k (slotsA W k) =
      (List.range k).map (secondSlot W) ++
        ((⟨[(k, k)], none⟩ : Slot) ::
          (List.range' (k + 1) (W - k - 1)).map firstSlot) := by
    rw [hA, hBdec, freeFirst_skip k _ _ ?hne]
    · congr 1
      rw [show firstSlot k = (⟨[], some (k, k)⟩ : Slot) from rfl,
        freeFirst_hit]
      rw [List.nil_append]
    case hne =>
      intro s hs
      obtain ⟨j, _, rfl⟩ := List.mem_map.mp hs
      rw [show slotFinish (secondSlot W j) = some (W + 2 * j) from rfl]
      intro hcontra
      have : W + 2 * j = k := by
        simpa using hcontra
      omega
  have hq : List.range' (W + k) (W - k) =
      (W + k) :: List.range' (W + k + 1) (W - k - 1) := by
    conv_lhs => rw [hWk, List.range'_succ]
  have hfill : fillIdle (fun n => n) k (freeFirst k (slotsA W k))
      (List.range' (W + k) (W - k)) =
      (slotsA W (k + 1), List.range' (W + k + 1) (W - (k + 1))) := by
    rw [hfree, hq]
    rw [fillIdle_append_busy _ _ _ _ _ ?busyA]
    case busyA =>
      intro s hs
      obtain ⟨j, _, rfl⟩ := List.mem_map.mp hs
      rfl
    rw [fillIdle_cons_idle]
    rw [fillIdle_busy _ _ _ _ ?busyB]
    case busyB =>
      intro s hs
      obtain ⟨j, _, rfl⟩ := List.mem_map.mp hs
      rfl
    rw [slotsA_split W (k + 1) (by omega)]
    rw [show List.range (k + 1) = List.range k ++ [k] from List.range_succ k]
    rw [List.map_append, List.append_assoc, List.map_singleton,
      List.singleton_append]
    rw [show secondSlot W k = (⟨[(k, k)], some (W + k, W + 2 * k)⟩ : Slot)
      from rfl]
    rw [show k + (W + k) = W + 2 * k by omega]
    rw [show W - (k + 1) = W - k - 1 by omega]
  show poolStep (fun n => n) ⟨slotsA W k, List.range' (W + k) (W - k)⟩ = _
  rw [poolStep]
  dsimp only
  rw [hmin]
  dsimp only
  rw [hfill]

theorem stepB (W m : Nat) (hm : m < W) :
    poolStep (fun n => n) ⟨slotsB W m, []⟩ = ⟨slotsB W (m + 1), []⟩ := by
  have hWm : W - m = (W - m - 1) + 1 := by omega
  have hB := slotsB_split W m (by omega)
  have hCdec : (List.range' m (W - m)).map (secondSlot W) =
      secondSlot W m ::
        (List.range' (m + 1) (W - m - 1)).map (secondSlot W) := by
    conv_lhs => rw [hWm, List.range'_succ, List.map_cons]
  have hmin : minFinish (slotsB W m) = some (W + 2 * m) := by
    rw [hB, minFinish_append, minFinish_done,
      minFinish_second W m (W - m) (by omega)]
    rfl
  have hfree : freeFirst (W + 2 * m) (slotsB W m) =
      (List.range m).map (doneSlot W) ++
        (doneSlot W m ::
          (List.range' (m + 1) (W - m - 1)).map (secondSlot W)) := by
    rw [hB, hCdec, freeFirst_skip (W + 2 * m) _ _ ?hneB]
    · congr 1
      rw [show secondSlot W m =
        (⟨[(m, m)], some (W + m, W + 2 * m)⟩ : Slot) from rfl, freeFirst_hit]
      rfl
    case hneB =>
      intro s hs
      obtain ⟨j, _, rfl⟩ := List.mem_map.mp hs
      rw [show slotFinish (doneSlot W j) = none from rfl]
      intro hcontra
      cases hcontra
  show poolStep (fun n => n) ⟨slotsB W m, []⟩ = _
  rw [poolStep]
  dsimp only
  rw [hmin]
  dsimp only
  rw [hfree, fillIdle_nilq]
  rw [slotsB_split W (m + 1) (by omega)]
  rw [show List.range (m + 1) = List.range m ++ [m] from List.range_succ m]
  rw [List.map_append, List.append_assoc, List.map_singleton,
    List.singleton_append]
  rw [show W - (m + 1) = W - m - 1 by omega]

theorem slotsA_top (W : Nat) : slotsA W W = slotsB W 0 := by
  rw [slotsA, slotsB]
  apply List.map_congr_left
  intro j hj
  rw [slotA, if_pos (List.mem_range.mp hj), slotB, if_neg (by omega)]

theorem fillIdle_replicate (dur : Nat → Nat) (now : Nat) :
    ∀ (n : Nat) (q : List Nat), n ≤ q.length →
      fillIdle dur now (List.replicate n ⟨[], none⟩) q =
        ((q.take n).map (fun t => ⟨[], some (t, now + dur t)⟩), q.drop n) := by
  intro n
  induction n with
  | zero => intro q _; simp [fillIdle]
  | succ n ih =>
      intro q hq
      cases q with
      | nil => simp at hq
      | cons t q' =>
          rw [List.replicate_succ, fillIdle_cons_idle,
            ih q' (by simpa using hq)]
          rw [List.take_succ_cons, List.drop_succ_cons, List.map_cons]

theorem oversub_start (W : Nat) :
    fillIdle (fun n => n) 0 (List.replicate W ⟨[], none⟩)
        (List.range (2 * W)) =
      (slotsA W 0, List.range' W W) := by
  rw [fillIdle_replicate (fun n => n) 0 W (List.range (2 * W))
    (by rw [List.length_range]; omega)]
  have hsplit : List.range (2 * W) = List.range W ++ List.range' W W := by
    have h := range_split (2 * W) W (by omega)
    rw [show (2 : Nat) * W - W = W by omega] at h
    exact h
  rw [hsplit, List.take_left' (by rw [List.length_range]),
    List.drop_left' (by rw [List.length_range])]
  congr 1
  rw [slotsA]
  apply List.map_congr_left
  intro j hj
  rw [slotA, if_neg (by omega), firstSlot]
  rw [Nat.zero_add]

theorem poolSteps_A (W : Nat) :
    ∀ (j k : Nat), k + j ≤ W →
      poolSteps (fun n => n) j ⟨slotsA W k, List.range' (W + k) (W - k)⟩ =
        ⟨slotsA W (k + j), List.range' (W + (k + j)) (W - (k + j))⟩ := by
  intro j
  induction j with
  | zero => intro k h; rw [poolSteps]; simp only [Nat.add_zero]
  | succ j ih =>
      intro k h
      rw [poolSteps, stepA W k (by omega)]
      rw [show W + k + 1 = W + (k + 1) by omega]
      rw [ih (k + 1) (by omega)]
      rw [show k + 1 + j = k + (j + 1) by omega]

theorem poolSteps_B (W : Nat) :
    ∀ (j m : Nat), m + j ≤ W →
      poolSteps (fun n => n) j ⟨slotsB W m, []⟩ = ⟨slotsB W (m + j), []⟩ := by
  intro j
  induction j with
  | zero => intro m h; rw [poolSteps]; simp only [Nat.add_zero]
  | succ j ih =>
      intro m h
      rw [poolSteps, stepB W m (by omega), ih (m + 1) (by omega)]
      rw [show m + 1 + j = m + (j + 1) by omega]

theorem poolSteps_add (dur : Nat → Nat) :
    ∀ (a b : Nat) (s : PoolState),
      poolSteps dur (a + b) s = poolSteps dur b (poolSteps dur a s) := by
  intro a
  induction a with
  | zero => intro b s; rw [Nat.zero_add, poolSteps]
  | succ a ih =>
      intro b s
      rw [show a + 1 + b = (a + b) + 1 by omega, poolSteps, poolSteps, ih]

theorem oversub_final (W : Nat) : oversub W = ⟨slotsB W W, []⟩ := by
  rw [oversub, oversub_start W]
  dsimp only
  rw [show (2 * W) = W + W by omega, poolSteps_add]
  have hA := poolSteps_A W W 0 (by omega)
  rw [Nat.add_zero, Nat.sub_zero, Nat.zero_add] at hA
  rw [hA]
  rw [show W - W = 0 from by omega]
  rw [show List.range' (W + W) 0 = [] from rfl]
  rw [slotsA_top]
  have hB := poolSteps_B W W 0 (by omega)
  rw [Nat.zero_add] at hB
  exact hB

theorem histMax_done (W j : Nat) :
    histMax (doneSlot W j).hist = W + 2 * j := by
  rw [show histMax (doneSlot W j).hist = max j (max (W + 2 * j) 0) from rfl]
  omega

theorem foldr_slotsB (W : Nat) :
    ∀ n b, n ≤ W →
      ((List.range n).map (slotB W W)).foldr
          (fun sl acc => max (histMax sl.hist) acc) b =
        if n = 0 then b else max b (W + 2 * (n - 1)) := by
  intro n
  induction n with
  | zero => intro b _; simp
  | succ n ih =>
      intro b hn
      rw [show List.range (n + 1) = List.range n ++ [n] from List.range_succ n,
        List.map_append, List.foldr_append, List.map_singleton]
      rw [show List.foldr (fun sl acc => max (histMax sl.hist) acc) b
        [slotB W W n] = max (histMax (slotB W W n).hist) b from rfl]
      rw [slotB, if_pos (by omega), histMax_done]
      rw [ih (max (W + 2 * n) b) (by omega)]
      rcases Nat.eq_zero_or_pos n with h0 | hpos
      · subst h0
        rw [if_pos rfl, if_neg (by omega)]
        omega
      · rw [if_neg (by omega), if_neg (by omega)]
        omega

theorem makespan_final (W : Nat) (hW : 0 < W) :
    makespan ⟨slotsB W W, []⟩ = 3 * W - 2 := by
  rw [makespan]
  dsimp only
  rw [slotsB, foldr_slotsB W W 0 (Nat.le_refl W), if_neg (by omega)]
  omega

/-- C1: in the oversubscription scenario — pool size W, N = 2W tasks of
durations 0..N-1 submitted in increasing order to an idle scheduler —
worker slot i runs exactly the pair of tasks (i, i + W), finishing the
first at instant i and the second at instant 2i + W, the queue drains, the
overall completion time is 3W - 2, and for W = 8 it is 22. -/
theorem oversubscription_schedule (W i : Nat) (hi : i < W) :
    (oversub W).slots.getD i ⟨[], none⟩ =
      ⟨[(i, i), (i + W, 2 * i + W)], none⟩ ∧
    (oversub W).queue = [] ∧
    makespan (oversub W) = 3 * W - 2 ∧
    (W = 8 → makespan (oversub W) = 22) := by
  rw [oversub_final]
  refine ⟨?_, rfl, makespan_final W (by omega), ?_⟩
  · rw [show (⟨slotsB W W, []⟩ : PoolState).slots = slotsB W W from rfl,
      slotsB]
    have hlen : i < ((List.range W).map (slotB W W)).length := by
      rw [List.length_map, List.length_range]
      exact hi
    rw [List.getD_eq_getElem _ _ hlen]
    rw [List.getElem_map, List.getElem_range, slotB, if_pos hi, doneSlot]
    rw [show W + i = i + W by omega, show W + 2 * i = 2 * i + W by omega]
  · intro hW
    subst hW
    rw [makespan_final 8 (by omega)]

/-- Witness for C1 at W = 8, slot 3: it runs the pair of tasks (3, 11),
finishing them at instants 3 and 14, and the overall completion time is
22, matching the notebook's table. -/
theorem oversubscription_schedule_witness :
    (oversub 8).slots.getD 3 ⟨[], none⟩ = ⟨[(3, 3), (11, 14)], none⟩ ∧
    makespan (oversub 8) = 22 := by
  constructor
  · have h := (oversubscription_schedule 8 3 (by decide)).1
    norm_num at h
    exact h
  · exact (oversubscription_schedule 8 3 (by decide)).2.2.2 rfl

end RayCore
